import Mathlib

/-!
Verification development for the accumulator core of `bellman-bignat`
(`src/set.rs`): the hash-tree accumulator `MerkleSet`, the RSA-backed
`Set` wrapper around an integer-set backend, the generic `GenSet::swap_all`
combinator, the value-level semantics of the circuit gadgets
(`MerkleCircuitSet::swap_all`, `CircuitSet::remove`/`insert`) and the
`SetBench::synthesize` orchestration.

The Poseidon hash is an external collaborator; it is modelled as an
abstract function `H : List F → F` over an abstract field-element type `F`
with decidable equality (bundled in `HashParams` together with the zero
element `z` used for empty leaves).  Finite maps held in `FnvHashMap` /
`BTreeMap` are modelled as Lean functions into `Option`, updated
pointwise; Rust panics (`expect`, `assert!`) are modelled by `Option`
results, `none` meaning the computation aborts.
-/

set_option linter.unusedSectionVars false

namespace BellmanBignat

/-- Abstract hash collaborator: `H` models `poseidon_hash` (we always use the
last element of the returned vector, as the source does via `.pop().unwrap()`),
and `z` models the field element `usize_to_f(0)` used for unoccupied leaves. -/
structure HashParams (F : Type) where
  H : List F → F
  z : F

variable {F : Type} [DecidableEq F]

/-- Reading a node map with a per-level default, as `MerkleSet::get_node` does:
`self.nodes.get(&(level, index)).unwrap_or_else(|| &self.defaults[level])`. -/
def getN (nodes : Nat × Nat → Option F) (defaults : Nat → F) (level index : Nat) : F :=
  (nodes (level, index)).getD (defaults level)

/-- Pointwise insertion into a node map, modelling `FnvHashMap::insert`
(later insertions overwrite earlier ones). -/
def insertN (nodes : Nat × Nat → Option F) (k : Nat × Nat) (v : F) :
    Nat × Nat → Option F :=
  fun p => if p = k then some v else nodes p

/-- The per-level default hashes of `MerkleSet::new_with`: `defaultAt hp k` is
the default for a node whose subtree has height `k` (`k` hash applications
above the zero leaf).  The source builds the vector `d` with `d[depth] = 0`
and `d[level] = H(d[level+1], d[level+1])`; so `defaults[level] =
defaultAt hp (depth - level)`. -/
def defaultAt (hp : HashParams F) : Nat → F
  | 0 => hp.z
  | k + 1 => hp.H [defaultAt hp k, defaultAt hp k]

/-- The value a node of a binary hash tree must carry, computed purely from a
total leaf assignment: `nodeVal hp leafF fuel i` is the hash of the subtree of
height `fuel` rooted at index `i` of its level. -/
def nodeVal (hp : HashParams F) (leafF : Nat → F) : Nat → Nat → F
  | 0, i => leafF i
  | n + 1, i => hp.H [nodeVal hp leafF n (2 * i), nodeVal hp leafF n (2 * i + 1)]

/-- The hash-tree accumulator, from `src/set.rs` (`MerkleSet`):
`nodes` maps `(level, index-in-level)` to a hash value (level 0 is the root,
level `depth` holds the leaves), `defaults` gives the hash of a node with no
occupied descendants, and `leafIndices` maps a leaf hash back to its index.
`hash_params` is carried separately as a `HashParams` argument to each
operation.  (`leaf_indices` keys are `Fr` representations in the source;
`into_repr` is injective, so keying by the field value is equivalent.) -/
structure MerkleSet (F : Type) where
  nodes : Nat × Nat → Option F
  defaults : Nat → F
  depth : Nat
  leafIndices : F → Option Nat

namespace MerkleSet

/-- `MerkleSet::get_node`. -/
def get_node (s : MerkleSet F) (level index : Nat) : F :=
  getN s.nodes s.defaults level index

/-- The loop body of `MerkleSet::update_hashes_from_leaf_index`, recursing on
the number of remaining levels: with counter `n + 1` it writes level `n` at
index `idx` (the hash of that node's two children) and continues with
counter `n`, index `idx / 2`.  The top-level call uses counter `depth`, so the
levels written are `depth - 1, …, 0`, exactly the source's
`for level in (0..self.depth).rev()`. -/
def updateAux (hp : HashParams F) (defaults : Nat → F) :
    Nat → Nat → (Nat × Nat → Option F) → (Nat × Nat → Option F)
  | 0, _, nodes => nodes
  | n + 1, idx, nodes =>
      updateAux hp defaults n (idx / 2)
        (insertN nodes (n, idx)
          (hp.H [getN nodes defaults (n + 1) (2 * idx),
                 getN nodes defaults (n + 1) (2 * idx + 1)]))

/-- `MerkleSet::update_hashes_from_leaf_index`: `index /= 2`, then recompute
the ancestor hashes from level `depth - 1` up to the root.  Only `self.nodes`
is mutated. -/
def update_hashes_from_leaf_index (hp : HashParams F) (s : MerkleSet F) (index : Nat) :
    MerkleSet F :=
  { s with nodes := updateAux hp s.defaults s.depth (index / 2) s.nodes }

/-- The leaf row built by `MerkleSet::new_with`:
`for (i, hash) in leaves.into_iter().enumerate() { nodes.insert((depth, i), hash) }`. -/
def leafRowOf (depth : Nat) (leaves : List F) : Nat × Nat → Option F :=
  leaves.enum.foldl (fun m p => insertN m (depth, p.1) p.2) (fun _ => none)

/-- The leaf-hash → index map built by `MerkleSet::new_with`:
`leaves.iter().enumerate().map(|(i, e)| (e.into_repr(), i)).collect()` — a
later entry with the same key overwrites an earlier one. -/
def leafIndicesOf (leaves : List F) : F → Option Nat :=
  leaves.enum.foldl (fun m p => fun x => if x = p.2 then some p.1 else m x) (fun _ => none)

/-- `MerkleSet::new_with`: hash every item into a leaf, build the
leaf-hash → index map and the leaf row of the node map from the enumerated
leaves, precompute the defaults, then recompute the ancestor hashes of every
occupied leaf. -/
def new_with (hp : HashParams F) (depth : Nat) (items : List (List F)) : MerkleSet F :=
  let leaves : List F := items.map hp.H
  let n := leaves.length
  let s0 : MerkleSet F :=
    { nodes := leafRowOf depth leaves
      defaults := fun level => defaultAt hp (depth - level)
      depth := depth
      leafIndices := leafIndicesOf leaves }
  (List.range n).foldl (fun s i => update_hashes_from_leaf_index hp s i) s0

/-- `MerkleSet::witness`: the membership path of an item, from the top of the
tree going down; each pair is (`true` iff the sibling hash is a right child,
sibling hash).  `none` models the `expect("missing element in
merkleset::swap")` panic. -/
def witness (hp : HashParams F) (s : MerkleSet F) (item : List F) :
    Option (List (Bool × F)) :=
  let o_r := hp.H item
  (s.leafIndices o_r).map fun i =>
    (List.range s.depth).map fun level =>
      let index_at_level := i >>> (s.depth - (level + 1))
      (index_at_level % 2 == 0, getN s.nodes s.defaults (level + 1) (index_at_level ^^^ 1))

/-- `<MerkleSet as GenSet>::swap`: look up the old item's leaf (panicking --
`none` -- when absent), overwrite that leaf with the new item's hash, update
the leaf-index map (remove the old key, then insert the new key at the same
index), and recompute the ancestor hashes. -/
def swap (hp : HashParams F) (s : MerkleSet F) (old : List F) (new : List F) :
    Option (MerkleSet F) :=
  let o_r := hp.H old
  let nh := hp.H new
  match s.leafIndices o_r with
  | none => none
  | some i =>
      let s1 : MerkleSet F :=
        { s with
          nodes := insertN s.nodes (s.depth, i) nh
          leafIndices := fun x =>
            if x = nh then some i else if x = o_r then none else s.leafIndices x }
      some (update_hashes_from_leaf_index hp s1 i)

/-- `<MerkleSet as GenSet>::digest`: the root node. -/
def digest (s : MerkleSet F) : F :=
  s.get_node 0 0

end MerkleSet

/-- The provided method `GenSet::swap_all`, generic over the backend's `swap`:
`for (i, j) in old.into_iter().zip(new.into_iter()) { self.swap(i, j) }`.
An `Option`-valued `swapFn` models a `swap` that may panic. -/
def genSwapAll {σ : Type} (swapFn : σ → List F → List F → Option σ)
    (s : σ) (olds news : List (List F)) : Option σ :=
  (olds.zip news).foldl (fun acc p => acc.bind fun t => swapFn t p.1 p.2) (some s)

/-- `GenSet::swap_all` at the `MerkleSet` backend. -/
def MerkleSet.swap_all (hp : HashParams F) (s : MerkleSet F)
    (olds news : List (List F)) : Option (MerkleSet F) :=
  genSwapAll (MerkleSet.swap hp) s olds news

/-- The hash-tree set states reachable by construction (`new_with`) followed
by any sequence of successful `swap` operations. -/
inductive MerkleSet.Reachable (hp : HashParams F) : MerkleSet F → Prop
  | init (depth : Nat) (items : List (List F)) :
      MerkleSet.Reachable hp (MerkleSet.new_with hp depth items)
  | step (s t : MerkleSet F) (old new : List F) :
      MerkleSet.Reachable hp s → MerkleSet.swap hp s old new = some t →
      MerkleSet.Reachable hp t

/-- Tree consistency at one internal node: its value is the hash of its two
children (absent nodes read through the per-level defaults via `get_node`). -/
def ConsistentAt (hp : HashParams F) (s : MerkleSet F) (l i : Nat) : Prop :=
  s.get_node l i = hp.H [s.get_node (l + 1) (2 * i), s.get_node (l + 1) (2 * i + 1)]

/-- Tree consistency everywhere (every internal node of every level). -/
def Consistent (hp : HashParams F) (s : MerkleSet F) : Prop :=
  ∀ l i, l < s.depth → ConsistentAt hp s l i

/-- Soundness of the leaf-index map: every entry points at an occupied leaf
position holding exactly that hash. -/
def LeafSound (s : MerkleSet F) : Prop :=
  ∀ x i, s.leafIndices x = some i → s.nodes (s.depth, i) = some x

/-- The claim-shaped surjectivity statement: the leaf-index map sends the hash
of each occupied leaf to that leaf's own position (this is the "bijection onto
occupied positions" direction that fails in the presence of duplicate leaf
hashes). -/
def LeafIndicesOntoOccupied (s : MerkleSet F) : Prop :=
  ∀ i x, s.nodes (s.depth, i) = some x → s.leafIndices x = some i

/-- Value-level state of the circuit gadget `MerkleCircuitSet`: the optional
native witness, the value carried by the `digest` wire, and `params.depth`. -/
structure MerkleCircuitSet (F : Type) where
  value : Option (MerkleSet F)
  digest : F
  depth : Nat

namespace MerkleCircuitSet

/-- Folding a leaf hash up a witness path, re-hashing at each level with the
sibling order chosen by the direction bit, as both loops of
`MerkleCircuitSet::swap_all` do (`conditionally_reverse` swaps the pair when
the bit is set, and the path is traversed bottom-up via `.rev()`). -/
def foldPath (hp : HashParams F) (path : List (Bool × F)) (leaf : F) : F :=
  path.foldr (fun bh cur => if bh.1 then hp.H [cur, bh.2] else hp.H [bh.2, cur]) leaf

/-- One iteration of the loop in `MerkleCircuitSet::swap_all` at the value
level: allocate the witness path of the removed item (aborting when the
native value or the item is missing, or the path is shorter than
`params.depth`), fold the old leaf hash up the path, record whether the
resulting root equals the current digest wire (the `root check` constraint),
fold the new leaf hash up the same path to obtain the new digest wire, and
advance the native value by `swap`.  The `Bool` accumulates satisfaction of
the root-check constraints. -/
def swapStep (hp : HashParams F) (st : MerkleCircuitSet F × Bool)
    (old new : List F) : Option (MerkleCircuitSet F × Bool) :=
  match st.1.value with
  | none => none
  | some v =>
      match MerkleSet.witness hp v old with
      | none => none
      | some w =>
          if st.1.depth ≤ w.length then
            let path := w.take st.1.depth
            let cur := foldPath hp path (hp.H old)
            let rootOk := decide (cur = st.1.digest)
            let newDigest := foldPath hp path (hp.H new)
            match MerkleSet.swap hp v old new with
            | none => none
            | some v2 =>
                some ({ value := some v2, digest := newDigest, depth := st.1.depth },
                      st.2 && rootOk)
          else none

/-- `MerkleCircuitSet::swap_all` at the value level: the per-swap loop over
the zipped removed/inserted item sequences. -/
def swap_all (hp : HashParams F) (cs : MerkleCircuitSet F)
    (removed inserted : List (List F)) : Option (MerkleCircuitSet F × Bool) :=
  (removed.zip inserted).foldlM (fun st p => swapStep hp st p.1 p.2) (cs, true)

end MerkleCircuitSet

/-- The RSA group descriptor (`group.rs::RsaGroup`, a collaborator):
generator `g` and modulus `m`. -/
structure RsaGroup where
  g : Nat
  m : Nat
  deriving DecidableEq

/-- Modelled from the spec: the integer-set backend `NaiveExpSet` of
`int_set.rs` is not under `src/`; per the spec (§3, §4.1–4.2) the native RSA
accumulator "owns the group descriptor (generator, modulus), a multiset of
currently-present EncodedElements …, and the current Digest", with the
invariant `Digest == generator^(∏ present elements) mod modulus`; `remove`
"reports whether the item was present", `insert` "whether it was previously
absent", and the digest is recomputed from the surviving elements' product. -/
structure NaiveExpSet where
  group : RsaGroup
  elements : Multiset Nat
  deriving DecidableEq

namespace NaiveExpSet

/-- Modelled from the spec: construction from an initial element collection. -/
def new_with (group : RsaGroup) (items : List Nat) : NaiveExpSet :=
  ⟨group, (items : Multiset Nat)⟩

/-- Modelled from the spec: record the element as present; report whether it
was previously absent (duplicate insertion is allowed but signalled). -/
def insert (s : NaiveExpSet) (n : Nat) : Bool × NaiveExpSet :=
  (decide (n ∉ s.elements), ⟨s.group, n ::ₘ s.elements⟩)

/-- Modelled from the spec: drop one occurrence of the element if present;
report whether it was present. -/
def remove (s : NaiveExpSet) (n : Nat) : Bool × NaiveExpSet :=
  if n ∈ s.elements then (true, ⟨s.group, s.elements.erase n⟩) else (false, s)

/-- Modelled from the spec: `digest() == generator^(product of present
element encodings) mod modulus` at all times. -/
def digest (s : NaiveExpSet) : Nat :=
  s.group.g ^ s.elements.prod % s.group.m

end NaiveExpSet

/-- The RSA-backed `Set` of `src/set.rs`, instantiated at the `NaiveExpSet`
backend.  The hash parameters, hash domain and limb width only enter through
`hash_to_rsa_element`, which is a collaborator ("Hash"); each operation
therefore takes the element encoding as an abstract function
`enc : List F → Nat`. -/
structure RsaSet where
  inner : NaiveExpSet
  deriving DecidableEq

namespace RsaSet

/-- `Set::new_with`: encode every item and hand the encodings to the inner
backend's constructor. -/
def new_with {F : Type} (enc : List F → Nat) (group : RsaGroup)
    (items : List (List F)) : RsaSet :=
  ⟨NaiveExpSet.new_with group (items.map enc)⟩

/-- `Set::insert`: encode and insert, returning whether the item was new. -/
def insert {F : Type} (enc : List F → Nat) (s : RsaSet) (n : List F) : Bool × RsaSet :=
  let r := s.inner.insert (enc n)
  (r.1, ⟨r.2⟩)

/-- `Set::remove`: encode and remove, returning whether the item was present. -/
def remove {F : Type} (enc : List F → Nat) (s : RsaSet) (n : List F) : Bool × RsaSet :=
  let r := s.inner.remove (enc n)
  (r.1, ⟨r.2⟩)

/-- `<Set as GenSet>::swap`: `self.remove(old); self.insert(new);` — both
boolean results are discarded, so the native swap never aborts. -/
def swap {F : Type} (enc : List F → Nat) (s : RsaSet) (old : List F) (new : List F) :
    RsaSet :=
  (RsaSet.insert enc (RsaSet.remove enc s old).2 new).2

/-- `Set::remove_all`: `all_present &= self.remove(n)` over the sequence. -/
def remove_all {F : Type} (enc : List F → Nat) (s : RsaSet) (ns : List (List F)) :
    Bool × RsaSet :=
  ns.foldl (fun acc n =>
    let r := RsaSet.remove enc acc.2 n
    (acc.1 && r.1, r.2)) (true, s)

/-- `Set::insert_all`: `all_absent &= self.insert(n)` over the sequence. -/
def insert_all {F : Type} (enc : List F → Nat) (s : RsaSet) (ns : List (List F)) :
    Bool × RsaSet :=
  ns.foldl (fun acc n =>
    let r := RsaSet.insert enc acc.2 n
    (acc.1 && r.1, r.2)) (true, s)

/-- `<Set as GenSet>::digest`. -/
def digest (s : RsaSet) : Nat :=
  s.inner.digest

/-- `GenSet::swap_all` at the `Set` backend (the native swap is total). -/
def swap_all {F : Type} (enc : List F → Nat) (s : RsaSet)
    (olds news : List (List F)) : Option RsaSet :=
  genSwapAll (fun t o n => some (RsaSet.swap enc t o n)) s olds news

end RsaSet

/-- The claim-shaped contract for the native RSA swap, following the spec's
words ("Fails (native) if `old_item` is not currently present … and aborts
the computation"): abort — `none` — when the old item is absent. -/
def rsaSwapSpec {F : Type} (enc : List F → Nat) (s : RsaSet)
    (old : List F) (new : List F) : Option RsaSet :=
  if enc old ∈ s.inner.elements then some (RsaSet.swap enc s old new) else none

/-- The native-witness update of `CircuitSet::remove` (src/set.rs:646–656):
`assert!(v.remove_all(…))` — witness construction aborts (`none`) unless
every removed item was present. -/
def circuitSetRemoveValue {F : Type} (enc : List F → Nat) (v : RsaSet)
    (items : List (List F)) : Option RsaSet :=
  let r := RsaSet.remove_all enc v items
  if r.1 then some r.2 else none

/-- The native-witness update of `CircuitSet::insert` (src/set.rs:687–697):
`v.insert_all(…)` with the boolean result discarded. -/
def circuitSetInsertValue {F : Type} (enc : List F → Nat) (v : RsaSet)
    (items : List (List F)) : Option RsaSet :=
  some (RsaSet.insert_all enc v items).2

/-- The native-witness update of `<CircuitSet as GenCircuitSet>::swap_all`:
remove, then insert. -/
def circuitSetSwapAllValue {F : Type} (enc : List F → Nat) (v : RsaSet)
    (removed inserted : List (List F)) : Option RsaSet :=
  (circuitSetRemoveValue enc v removed).bind fun v2 =>
    circuitSetInsertValue enc v2 inserted

/-- Modelled from the spec and `bignat.rs::nat_to_limbs` (a collaborator,
used in `examples/rollup.rs` to rebuild the verifier's public inputs):
the little-endian base-`2^limbWidth` limb decomposition, `nLimbs` limbs. -/
def natToLimbs (limbWidth nLimbs x : Nat) : List Nat :=
  (List.range nLimbs).map fun i => x / 2 ^ (limbWidth * i) % 2 ^ limbWidth

/-- Collecting a sequence of fallible allocations, as
`collect::<Result<Vec<_>, SynthesisError>>` does. -/
def collectOpt {α : Type} : List (Option α) → Option (List α)
  | [] => some []
  | o :: rest => o.bind fun a => (collectOpt rest).map (a :: ·)

/-- Allocation of the removal/insertion item witnesses in
`SetBench::synthesize`: for `i in 0..count`, for `j in 0..size`, the value
`items[i][j]`, any missing entry aborting with a `SynthesisError` (`grab()?`). -/
def allocItems (items : List (List Nat)) (count size : Nat) :
    Option (List (List Nat)) :=
  collectOpt ((List.range count).map fun i =>
    (items.get? i).bind fun it =>
      collectOpt ((List.range size).map fun j => it.get? j))

/-- Observable constraint-system events of `SetBench::synthesize`, in program
order: public-input allocation (`inputize`, with the wire values), the
Fiat–Shamir challenge hash (`hash_to_pocklington_prime`, with its exact input
list), and the final digest equality constraint. -/
inductive CSEvent
  | inputize (vals : List Nat)
  | challengeHash (input : List Nat)
  | equalCheck (a b : Nat)
  deriving DecidableEq

/-- `SetBenchInputs` (src/set.rs:725–737). -/
structure SetBenchInputs where
  initial_state : RsaSet
  final_digest : Nat
  to_remove : List (List Nat)
  to_insert : List (List Nat)

/-- `SetBenchParams` (src/set.rs:837–849); the Poseidon parameters enter only
through the abstract encoding, and `verbose` only prints. -/
structure SetBenchParams where
  group : RsaGroup
  limb_width : Nat
  n_bits_base : Nat
  n_bits_elem : Nat
  n_bits_challenge : Nat
  item_size : Nat
  n_removes : Nat
  n_inserts : Nat

/-- Value-level model of `SetBench::synthesize` on the proving path (inputs
present), recording the constraint-system events in program order:
allocate and inputize the group (wires: generator limbs then modulus limbs,
as `examples/rollup.rs` reconstructs them), allocate and inputize the initial
set (wires: the digest's limbs), allocate the removal and insertion
witnesses, hash the digest limbs followed by the insertions and the removals
into the challenge, perform the batched swap (whose native witness update can
abort on a missing removal), allocate the expected digest, constrain it equal
to the resulting digest, and inputize the final set.  Wire values of the
`BigNat` digest gadgets are modelled from the spec as the limb decomposition
of the native digest. -/
def synthesize (enc : List Nat → Nat) (inputs : SetBenchInputs)
    (params : SetBenchParams) : Option (List CSEvent × RsaSet) :=
  let nLimbs := params.n_bits_base / params.limb_width
  let limbs := natToLimbs params.limb_width nLimbs
  let group := inputs.initial_state.inner.group
  let groupWires := limbs group.g ++ limbs group.m
  let d0 := RsaSet.digest inputs.initial_state
  (allocItems inputs.to_remove params.n_removes params.item_size).bind fun removals =>
  (allocItems inputs.to_insert params.n_inserts params.item_size).bind fun insertions =>
  let toHashToChallenge := limbs d0 ++ insertions.flatten ++ removals.flatten
  (circuitSetSwapAllValue enc inputs.initial_state removals insertions).bind fun finalSet =>
  let dNew := RsaSet.digest finalSet
  some ([CSEvent.inputize groupWires,
         CSEvent.inputize (limbs d0),
         CSEvent.challengeHash toHashToChallenge,
         CSEvent.equalCheck dNew inputs.final_digest,
         CSEvent.inputize (limbs dNew)], finalSet)

/-- The challenge-hash calls recorded in a trace. -/
def challengeEvents (tr : List CSEvent) : List (List Nat) :=
  tr.filterMap fun e =>
    match e with
    | CSEvent.challengeHash input => some input
    | _ => none

/-- The public input vector of a trace: the concatenation of all inputized
wire values, in order. -/
def publicInputs (tr : List CSEvent) : List Nat :=
  (tr.filterMap fun e =>
    match e with
    | CSEvent.inputize vals => some vals
    | _ => none).flatten

/-- Concrete hash parameters over `Nat`, used for witnesses and
counterexamples: `H` folds `a, b ↦ 2a + b + 1` from `1`. -/
def hpN : HashParams Nat :=
  ⟨fun l => l.foldl (fun a b => 2 * a + b + 1) 1, 0⟩

/-- Concrete element encoding over `Nat` items, used for witnesses and
counterexamples: an odd number determined by the head. -/
def encN : List Nat → Nat :=
  fun l => 2 * l.headD 0 + 3

/-- Concrete RSA group for witnesses and counterexamples. -/
def grpN : RsaGroup :=
  ⟨2, 1000003⟩

/-- Concrete `SetBenchInputs` for witnesses: a singleton initial set holding
`[3]`, which the batch removes while inserting `[4]`. -/
def inpN : SetBenchInputs :=
  { initial_state := RsaSet.new_with encN grpN [[3]]
    final_digest := 2 ^ 11 % 1000003
    to_remove := [[3]]
    to_insert := [[4]] }

/-- Concrete `SetBenchParams` for witnesses. -/
def prmN : SetBenchParams :=
  { group := grpN
    limb_width := 4
    n_bits_base := 16
    n_bits_elem := 16
    n_bits_challenge := 16
    item_size := 1
    n_removes := 1
    n_inserts := 1 }

theorem div_pow_succ_eq (x k : Nat) : x / 2 ^ (k + 1) = x / 2 ^ k / 2 := by
  rw [Nat.div_div_eq_div_mul, ← pow_succ]

theorem div_two_div_pow (x k : Nat) : x / 2 / 2 ^ k = x / 2 ^ (k + 1) := by
  rw [Nat.div_div_eq_div_mul, mul_comm, ← pow_succ]

theorem xor_one_ne (n : Nat) : n ^^^ 1 ≠ n := by
  intro h
  have h2 : (n ^^^ 1) ^^^ n = n ^^^ n := congrArg (· ^^^ n) h
  rw [Nat.xor_self, Nat.xor_comm n 1, Nat.xor_assoc, Nat.xor_self, Nat.xor_zero] at h2
  exact one_ne_zero h2

/-- A node whose child lies on the path of ancestors of `leaf` is itself on
that path. -/
theorem anc_of_child_anc {d l i leaf : Nat} (hl : l < d)
    (h : 2 * i = leaf / 2 ^ (d - (l + 1)) ∨ 2 * i + 1 = leaf / 2 ^ (d - (l + 1))) :
    i = leaf / 2 ^ (d - l) := by
  have hk : d - l = (d - (l + 1)) + 1 := by omega
  rw [hk, div_pow_succ_eq]
  rcases h with h | h <;> omega

namespace MerkleSet

theorem updateAux_high (hp : HashParams F) (dflt : Nat → F) :
    ∀ (n idx : Nat) (nodes : Nat × Nat → Option F) (l i : Nat), n ≤ l →
      updateAux hp dflt n idx nodes (l, i) = nodes (l, i) := by
  intro n
  induction n with
  | zero => intro idx nodes l i _; rfl
  | succ n ih =>
      intro idx nodes l i hl
      have hk : ((l, i) : Nat × Nat) ≠ (n, idx) := by
        intro h
        have h1 : l = n := congrArg Prod.fst h
        omega
      simp only [updateAux]
      rw [ih _ _ _ _ (by omega)]
      unfold insertN
      rw [if_neg hk]

theorem updateAux_offpath (hp : HashParams F) (dflt : Nat → F) :
    ∀ (n idx : Nat) (nodes : Nat × Nat → Option F) (l i : Nat), l < n →
      i ≠ idx / 2 ^ (n - 1 - l) →
      updateAux hp dflt n idx nodes (l, i) = nodes (l, i) := by
  intro n
  induction n with
  | zero => intro idx nodes l i h; exact absurd h (Nat.not_lt_zero l)
  | succ n ih =>
      intro idx nodes l i hl hi
      have hexp : n + 1 - 1 - l = n - l := by omega
      rw [hexp] at hi
      simp only [updateAux]
      rcases Nat.lt_succ_iff_lt_or_eq.mp hl with h | h
      · have hi2 : i ≠ idx / 2 / 2 ^ (n - 1 - l) := by
          rw [div_two_div_pow]
          have h2 : n - 1 - l + 1 = n - l := by omega
          rw [h2]
          exact hi
        rw [ih (idx / 2) _ l i h hi2]
        have hk : ((l, i) : Nat × Nat) ≠ (n, idx) := by
          intro h3
          have h1 : l = n := congrArg Prod.fst h3
          omega
        unfold insertN
        rw [if_neg hk]
      · subst h
        have hi3 : i ≠ idx := by
          simpa using hi
        rw [updateAux_high hp dflt _ _ _ _ _ (le_refl l)]
        have hk : ((l, i) : Nat × Nat) ≠ (l, idx) := by
          intro h3
          exact hi3 (congrArg Prod.snd h3)
        unfold insertN
        rw [if_neg hk]

theorem updateAux_onpath (hp : HashParams F) (dflt : Nat → F) :
    ∀ (n idx : Nat) (nodes : Nat × Nat → Option F) (l : Nat), l < n →
      getN (updateAux hp dflt n idx nodes) dflt l (idx / 2 ^ (n - 1 - l))
        = hp.H [getN (updateAux hp dflt n idx nodes) dflt (l + 1)
                  (2 * (idx / 2 ^ (n - 1 - l))),
                getN (updateAux hp dflt n idx nodes) dflt (l + 1)
                  (2 * (idx / 2 ^ (n - 1 - l)) + 1)] := by
  intro n
  induction n with
  | zero => intro idx nodes l h; exact absurd h (Nat.not_lt_zero l)
  | succ n ih =>
      intro idx nodes l hl
      have hexp : n + 1 - 1 - l = n - l := by omega
      rw [hexp]
      rcases Nat.lt_succ_iff_lt_or_eq.mp hl with h | h
      · have harith : idx / 2 ^ (n - l) = idx / 2 / 2 ^ (n - 1 - l) := by
          rw [div_two_div_pow]
          have h2 : n - 1 - l + 1 = n - l := by omega
          rw [h2]
        simp only [updateAux]
        rw [harith]
        exact ih (idx / 2) _ l h
      · subst h
        simp only [Nat.sub_self, pow_zero, Nat.div_one]
        have e0 : updateAux hp dflt (l + 1) idx nodes (l, idx)
            = some (hp.H [getN nodes dflt (l + 1) (2 * idx),
                          getN nodes dflt (l + 1) (2 * idx + 1)]) := by
          simp only [updateAux]
          rw [updateAux_high hp dflt _ _ _ _ _ (le_refl l)]
          unfold insertN
          rw [if_pos rfl]
        have e1 : ∀ j : Nat, updateAux hp dflt (l + 1) idx nodes (l + 1, j)
            = nodes (l + 1, j) := by
          intro j
          have hk : ((l + 1, j) : Nat × Nat) ≠ (l, idx) := by
            intro h3
            have h1 : l + 1 = l := congrArg Prod.fst h3
            omega
          simp only [updateAux]
          rw [updateAux_high hp dflt _ _ _ _ _ (Nat.le_succ l)]
          unfold insertN
          rw [if_neg hk]
        simp only [getN, e0, e1, Option.getD_some]

theorem update_depth (hp : HashParams F) (s : MerkleSet F) (leaf : Nat) :
    (update_hashes_from_leaf_index hp s leaf).depth = s.depth :=
  rfl

theorem update_defaults (hp : HashParams F) (s : MerkleSet F) (leaf : Nat) :
    (update_hashes_from_leaf_index hp s leaf).defaults = s.defaults :=
  rfl

theorem update_leafIndices (hp : HashParams F) (s : MerkleSet F) (leaf : Nat) :
    (update_hashes_from_leaf_index hp s leaf).leafIndices = s.leafIndices :=
  rfl

theorem update_nodes_high (hp : HashParams F) (s : MerkleSet F) (leaf l i : Nat)
    (hl : s.depth ≤ l) :
    (update_hashes_from_leaf_index hp s leaf).nodes (l, i) = s.nodes (l, i) := by
  exact updateAux_high hp s.defaults s.depth (leaf / 2) s.nodes l i hl

theorem update_nodes_offpath (hp : HashParams F) (s : MerkleSet F) (leaf l i : Nat)
    (hl : l < s.depth) (hi : i ≠ leaf / 2 ^ (s.depth - l)) :
    (update_hashes_from_leaf_index hp s leaf).nodes (l, i) = s.nodes (l, i) := by
  apply updateAux_offpath hp s.defaults s.depth (leaf / 2) s.nodes l i hl
  rw [div_two_div_pow]
  have h2 : s.depth - 1 - l + 1 = s.depth - l := by omega
  rw [h2]
  exact hi

theorem update_get_node_of_ne (hp : HashParams F) (s : MerkleSet F) (leaf l i : Nat)
    (h : s.depth ≤ l ∨ i ≠ leaf / 2 ^ (s.depth - l)) :
    (update_hashes_from_leaf_index hp s leaf).get_node l i = s.get_node l i := by
  unfold get_node getN
  rcases Nat.lt_or_ge l s.depth with hl | hl
  · rcases h with h | h
    · omega
    · rw [update_nodes_offpath hp s leaf l i hl h]
      rfl
  · rw [update_nodes_high hp s leaf l i hl]
    rfl

theorem consistentAt_update_anc (hp : HashParams F) (s : MerkleSet F) (leaf l : Nat)
    (hl : l < s.depth) :
    ConsistentAt hp (update_hashes_from_leaf_index hp s leaf) l
      (leaf / 2 ^ (s.depth - l)) := by
  have harith : leaf / 2 ^ (s.depth - l) = (leaf / 2) / 2 ^ (s.depth - 1 - l) := by
    rw [div_two_div_pow]
    have h2 : s.depth - 1 - l + 1 = s.depth - l := by omega
    rw [h2]
  unfold ConsistentAt get_node
  rw [harith]
  exact updateAux_onpath hp s.defaults s.depth (leaf / 2) s.nodes l hl

/-- A node that is not an ancestor of the updated leaf keeps both its value
and its children's values, hence its consistency. -/
theorem consistentAt_update_of_not_anc (hp : HashParams F) {s : MerkleSet F}
    {l i leaf : Nat} (hl : l < s.depth) (hna : i ≠ leaf / 2 ^ (s.depth - l))
    (hc : ConsistentAt hp s l i) :
    ConsistentAt hp (update_hashes_from_leaf_index hp s leaf) l i := by
  unfold ConsistentAt
  rw [update_get_node_of_ne hp s leaf l i (Or.inr hna)]
  have hch : ∀ c : Nat, c = 2 * i ∨ c = 2 * i + 1 →
      (update_hashes_from_leaf_index hp s leaf).get_node (l + 1) c
        = s.get_node (l + 1) c := by
    intro c hcc
    apply update_get_node_of_ne
    rcases Nat.lt_or_ge (l + 1) s.depth with hld | hld
    · right
      intro hanc
      apply hna
      apply anc_of_child_anc hl
      rcases hcc with rfl | rfl
      · exact Or.inl hanc
      · exact Or.inr hanc
    · left
      exact hld
  rw [hch (2 * i) (Or.inl rfl), hch (2 * i + 1) (Or.inr rfl)]
  exact hc

theorem foldl_update_depth (hp : HashParams F) (L : List Nat) (s : MerkleSet F) :
    (L.foldl (fun t j => update_hashes_from_leaf_index hp t j) s).depth = s.depth := by
  induction L generalizing s with
  | nil => rfl
  | cons a L ih => exact ih (update_hashes_from_leaf_index hp s a)

theorem foldl_update_defaults (hp : HashParams F) (L : List Nat) (s : MerkleSet F) :
    (L.foldl (fun t j => update_hashes_from_leaf_index hp t j) s).defaults = s.defaults := by
  induction L generalizing s with
  | nil => rfl
  | cons a L ih => exact ih (update_hashes_from_leaf_index hp s a)

theorem foldl_update_leafIndices (hp : HashParams F) (L : List Nat) (s : MerkleSet F) :
    (L.foldl (fun t j => update_hashes_from_leaf_index hp t j) s).leafIndices
      = s.leafIndices := by
  induction L generalizing s with
  | nil => rfl
  | cons a L ih => exact ih (update_hashes_from_leaf_index hp s a)

theorem foldl_update_nodes_high (hp : HashParams F) (L : List Nat) (s : MerkleSet F)
    (l i : Nat) (hl : s.depth ≤ l) :
    (L.foldl (fun t j => update_hashes_from_leaf_index hp t j) s).nodes (l, i)
      = s.nodes (l, i) := by
  induction L generalizing s with
  | nil => rfl
  | cons a L ih =>
      have h1 := ih (update_hashes_from_leaf_index hp s a) hl
      rw [List.foldl_cons, h1, update_nodes_high hp s a l i hl]

/-- A node consistent before a sequence of leaf updates, or lying on the
ancestor path of one of the updated leaves, is consistent afterwards. -/
theorem foldl_update_consistentAt (hp : HashParams F) (L : List Nat)
    (s : MerkleSet F) (l i : Nat) (hl : l < s.depth)
    (h : ConsistentAt hp s l i ∨ ∃ leaf ∈ L, i = leaf / 2 ^ (s.depth - l)) :
    ConsistentAt hp (L.foldl (fun t j => update_hashes_from_leaf_index hp t j) s) l i := by
  induction L generalizing s with
  | nil =>
      rcases h with h | ⟨leaf, hm, _⟩
      · exact h
      · exact absurd hm (List.not_mem_nil leaf)
  | cons a L ih =>
      rw [List.foldl_cons]
      by_cases ha : i = a / 2 ^ (s.depth - l)
      · apply ih (update_hashes_from_leaf_index hp s a) hl
        left
        rw [ha]
        exact consistentAt_update_anc hp s a l hl
      · rcases h with hc | ⟨leaf, hm, hanc⟩
        · exact ih _ hl (Or.inl (consistentAt_update_of_not_anc hp hl ha hc))
        · rcases List.mem_cons.mp hm with rfl | hm2
          · exact absurd hanc ha
          · exact ih _ hl (Or.inr ⟨leaf, hm2, hanc⟩)

/-- Pointwise characterisation of the leaf row: inserting the enumerated
leaves starting at offset `off` writes exactly the positions
`off, …, off + leaves.length - 1` of level `depth`. -/
theorem leafRow_foldl_eq (depth : Nat) :
    ∀ (l : List F) (off : Nat) (m : Nat × Nat → Option F) (lv j : Nat),
      ((List.enumFrom off l).foldl (fun m p => insertN m (depth, p.1) p.2) m) (lv, j)
        = if lv = depth ∧ off ≤ j ∧ j < off + l.length then l.get? (j - off)
          else m (lv, j) := by
  intro l
  induction l with
  | nil =>
      intro off m lv j
      rw [if_neg]
      · rfl
      · simp only [List.length_nil]
        omega
  | cons a l ih =>
      intro off m lv j
      have hstep : List.enumFrom off (a :: l) = (off, a) :: List.enumFrom (off + 1) l := rfl
      rw [hstep, List.foldl_cons, ih (off + 1)]
      by_cases hc : lv = depth ∧ off + 1 ≤ j ∧ j < off + 1 + l.length
      · have hcond : lv = depth ∧ off ≤ j ∧ j < off + (a :: l).length := by
          simp only [List.length_cons]
          omega
        rw [if_pos hc, if_pos hcond]
        have hj : j - off = (j - (off + 1)) + 1 := by omega
        rw [hj]
        rfl
      · rw [if_neg hc]
        by_cases hk : ((lv, j) : Nat × Nat) = (depth, off)
        · have h1 : lv = depth := congrArg Prod.fst hk
          have h2 : j = off := congrArg Prod.snd hk
          have hcond : lv = depth ∧ off ≤ j ∧ j < off + (a :: l).length := by
            simp only [List.length_cons]
            omega
          unfold insertN
          rw [if_pos hk, if_pos hcond]
          have hz : j - off = 0 := by omega
          rw [hz]
          rfl
        · unfold insertN
          rw [if_neg hk, if_neg]
          intro hcond
          rcases hcond with ⟨h1, h2, h3⟩
          subst h1
          simp only [List.length_cons] at h3
          rcases Nat.lt_or_ge off j with ho | ho
          · exact hc ⟨rfl, by omega, by omega⟩
          · have : j = off := by omega
            subst this
            exact hk rfl

/-- Soundness of the enumerated leaf-index fold: any binding it produces
either came from the initial map (for a key not among the leaves) or points
at a position actually holding that leaf value. -/
theorem leafIndices_foldl_sound :
    ∀ (l : List F) (off : Nat) (m : F → Option Nat) (x : F) (k : Nat),
      ((List.enumFrom off l).foldl
          (fun m p => fun x => if x = p.2 then some p.1 else m x) m) x = some k →
      (m x = some k ∧ x ∉ l) ∨
        (off ≤ k ∧ k - off < l.length ∧ l.get? (k - off) = some x) := by
  intro l
  induction l with
  | nil =>
      intro off m x k h
      exact Or.inl ⟨h, List.not_mem_nil x⟩
  | cons a l ih =>
      intro off m x k h
      have hstep : List.enumFrom off (a :: l) = (off, a) :: List.enumFrom (off + 1) l := rfl
      rw [hstep, List.foldl_cons] at h
      rcases ih (off + 1) _ x k h with ⟨hm, hnm⟩ | ⟨h1, h2, h3⟩
      · by_cases hx : x = a
        · rw [if_pos hx] at hm
          have hk : k = off := by
            injection hm
            omega
          subst hk
          refine Or.inr ⟨le_refl k, ?_, ?_⟩
          · simp only [Nat.sub_self, List.length_cons]
            omega
          · simp only [Nat.sub_self, List.get?_cons_zero]
            rw [hx]
        · rw [if_neg hx] at hm
          refine Or.inl ⟨hm, ?_⟩
          intro hmem
          rcases List.mem_cons.mp hmem with h | h
          · exact hx h
          · exact hnm h
      · refine Or.inr ⟨by omega, ?_, ?_⟩
        · simp only [List.length_cons]
          omega
        · have hj : k - off = (k - (off + 1)) + 1 := by omega
          rw [hj, List.get?_cons_succ]
          exact h3

theorem leafRowOf_eq (depth : Nat) (leaves : List F) (lv j : Nat) :
    leafRowOf depth leaves (lv, j)
      = if lv = depth ∧ j < leaves.length then leaves.get? j else none := by
  unfold leafRowOf
  have h := leafRow_foldl_eq depth leaves 0 (fun _ => none) lv j
  rw [show leaves.enum = List.enumFrom 0 leaves from rfl]
  rw [h]
  by_cases hc : lv = depth ∧ j < leaves.length
  · rw [if_pos ⟨hc.1, Nat.zero_le j, by omega⟩, if_pos hc]
    rfl
  · rw [if_neg ?_, if_neg hc]
    intro hcond
    exact hc ⟨hcond.1, by omega⟩

theorem leafIndicesOf_sound (leaves : List F) (x : F) (k : Nat)
    (h : leafIndicesOf leaves x = some k) :
    k < leaves.length ∧ leaves.get? k = some x := by
  unfold leafIndicesOf at h
  rw [show List.enum leaves = List.enumFrom 0 leaves from rfl] at h
  rcases leafIndices_foldl_sound leaves 0 (fun _ => none) x k h with ⟨hm, _⟩ | ⟨_, h2, h3⟩
  · exact absurd hm (by simp)
  · constructor
    · simpa using h2
    · simpa using h3

theorem new_with_depth (hp : HashParams F) (depth : Nat) (items : List (List F)) :
    (new_with hp depth items).depth = depth := by
  unfold new_with
  rw [foldl_update_depth]

theorem new_with_defaults (hp : HashParams F) (depth : Nat) (items : List (List F)) :
    (new_with hp depth items).defaults = fun level => defaultAt hp (depth - level) := by
  unfold new_with
  rw [foldl_update_defaults]

theorem new_with_leafIndices (hp : HashParams F) (depth : Nat) (items : List (List F)) :
    (new_with hp depth items).leafIndices = leafIndicesOf (items.map hp.H) := by
  unfold new_with
  rw [foldl_update_leafIndices]

theorem new_with_nodes_high (hp : HashParams F) (depth : Nat) (items : List (List F))
    (lv j : Nat) (hl : depth ≤ lv) :
    (new_with hp depth items).nodes (lv, j)
      = if lv = depth ∧ j < (items.map hp.H).length then (items.map hp.H).get? j
        else none := by
  unfold new_with
  rw [foldl_update_nodes_high hp _ _ lv j hl]
  exact leafRowOf_eq depth (items.map hp.H) lv j

theorem new_with_eq (hp : HashParams F) (depth : Nat) (items : List (List F)) :
    new_with hp depth items
      = (List.range (items.map hp.H).length).foldl
          (fun s i => update_hashes_from_leaf_index hp s i)
          { nodes := leafRowOf depth (items.map hp.H)
            defaults := fun level => defaultAt hp (depth - level)
            depth := depth
            leafIndices := leafIndicesOf (items.map hp.H) } :=
  rfl

/-- Before any path update, every node that is not an ancestor of an occupied
leaf is consistent: empty subtrees read through the defaults, and the default
of each level is the hash of the next level's default. -/
theorem s0_consistentAt (hp : HashParams F) (depth : Nat) (leaves : List F) (l i : Nat)
    (hl : l < depth)
    (hna : ¬ ∃ leaf ∈ List.range leaves.length, i = leaf / 2 ^ (depth - l)) :
    ConsistentAt hp
      { nodes := leafRowOf depth leaves
        defaults := fun level => defaultAt hp (depth - level)
        depth := depth
        leafIndices := leafIndicesOf leaves } l i := by
  have hch : ∀ c : Nat, c = 2 * i ∨ c = 2 * i + 1 →
      (leafRowOf depth leaves (l + 1, c)).getD (defaultAt hp (depth - (l + 1)))
        = defaultAt hp (depth - (l + 1)) := by
    intro c hc
    rw [leafRowOf_eq, if_neg]
    · rfl
    · rintro ⟨hd, hlen⟩
      apply hna
      refine ⟨c, List.mem_range.mpr hlen, ?_⟩
      have hdl : depth - l = 1 := by omega
      rw [hdl, pow_one]
      rcases hc with rfl | rfl <;> omega
  have hroot : (leafRowOf depth leaves (l, i)).getD (defaultAt hp (depth - l))
      = defaultAt hp (depth - l) := by
    rw [leafRowOf_eq, if_neg]
    · rfl
    · rintro ⟨hd, _⟩
      omega
  unfold ConsistentAt get_node getN
  simp only
  rw [hroot, hch (2 * i) (Or.inl rfl), hch (2 * i + 1) (Or.inr rfl)]
  have hk : depth - l = (depth - (l + 1)) + 1 := by omega
  rw [hk]
  rfl

theorem new_with_consistent (hp : HashParams F) (depth : Nat) (items : List (List F)) :
    Consistent hp (new_with hp depth items) := by
  intro l i hl
  rw [new_with_depth] at hl
  rw [new_with_eq]
  apply foldl_update_consistentAt hp _ _ l i hl
  by_cases hanc : ∃ leaf ∈ List.range (items.map hp.H).length, i = leaf / 2 ^ (depth - l)
  · exact Or.inr hanc
  · exact Or.inl (s0_consistentAt hp depth (items.map hp.H) l i hl hanc)

theorem new_with_leafSound (hp : HashParams F) (depth : Nat) (items : List (List F)) :
    LeafSound (new_with hp depth items) := by
  intro x k h
  rw [new_with_leafIndices] at h
  obtain ⟨hlen, hget⟩ := leafIndicesOf_sound _ x k h
  rw [new_with_depth, new_with_nodes_high hp depth items depth k (le_refl depth),
    if_pos ⟨rfl, hlen⟩]
  exact hget

theorem swap_eq_none (hp : HashParams F) (s : MerkleSet F) (old new : List F)
    (h : s.leafIndices (hp.H old) = none) :
    MerkleSet.swap hp s old new = none := by
  simp only [MerkleSet.swap, h]

theorem swap_eq_some (hp : HashParams F) (s : MerkleSet F) (old new : List F) (i : Nat)
    (h : s.leafIndices (hp.H old) = some i) :
    MerkleSet.swap hp s old new
      = some (update_hashes_from_leaf_index hp
          { s with
            nodes := insertN s.nodes (s.depth, i) (hp.H new)
            leafIndices := fun x =>
              if x = hp.H new then some i
              else if x = hp.H old then none else s.leafIndices x } i) := by
  simp only [MerkleSet.swap, h]

theorem swap_consistent (hp : HashParams F) {s t : MerkleSet F} {old new : List F}
    (hcons : Consistent hp s) (hs : MerkleSet.swap hp s old new = some t) :
    Consistent hp t := by
  cases hsi : s.leafIndices (hp.H old) with
  | none =>
      rw [swap_eq_none hp s old new hsi] at hs
      exact absurd hs (by simp)
  | some i =>
      rw [swap_eq_some hp s old new i hsi] at hs
      set s1 : MerkleSet F :=
        { s with
          nodes := insertN s.nodes (s.depth, i) (hp.H new)
          leafIndices := fun x =>
            if x = hp.H new then some i
            else if x = hp.H old then none else s.leafIndices x } with hs1
      obtain rfl : update_hashes_from_leaf_index hp s1 i = t := Option.some.inj hs
      intro l j hl
      have hld : l < s.depth := hl
      by_cases hanc : j = i / 2 ^ (s.depth - l)
      · subst hanc
        exact consistentAt_update_anc hp s1 i l hld
      · apply @consistentAt_update_of_not_anc F _ hp s1 l j i hld hanc
        have key : ∀ a b : Nat, ((a, b) : Nat × Nat) ≠ (s.depth, i) →
            get_node s1 a b = s.get_node a b := by
          intro a b hk
          show (insertN s.nodes (s.depth, i) (hp.H new) (a, b)).getD (s.defaults a)
            = (s.nodes (a, b)).getD (s.defaults a)
          unfold insertN
          rw [if_neg hk]
        have hk1 : ((l, j) : Nat × Nat) ≠ (s.depth, i) := by
          intro h3
          have := congrArg Prod.fst h3
          omega
        have hdl2 : l + 1 = s.depth → s.depth - l = 1 := by omega
        have hk2 : ((l + 1, 2 * j) : Nat × Nat) ≠ (s.depth, i) := by
          intro h3
          have hf : l + 1 = s.depth := congrArg Prod.fst h3
          have hsn : 2 * j = i := congrArg Prod.snd h3
          apply hanc
          rw [hdl2 hf, pow_one]
          omega
        have hk3 : ((l + 1, 2 * j + 1) : Nat × Nat) ≠ (s.depth, i) := by
          intro h3
          have hf : l + 1 = s.depth := congrArg Prod.fst h3
          have hsn : 2 * j + 1 = i := congrArg Prod.snd h3
          apply hanc
          rw [hdl2 hf, pow_one]
          omega
        have hcs := hcons l j hld
        unfold ConsistentAt at hcs ⊢
        rw [key l j hk1, key (l + 1) (2 * j) hk2, key (l + 1) (2 * j + 1) hk3]
        exact hcs

theorem swap_leafSound (hp : HashParams F) {s t : MerkleSet F} {old new : List F}
    (hls : LeafSound s) (hs : MerkleSet.swap hp s old new = some t) :
    LeafSound t := by
  cases hsi : s.leafIndices (hp.H old) with
  | none =>
      rw [swap_eq_none hp s old new hsi] at hs
      exact absurd hs (by simp)
  | some i =>
      rw [swap_eq_some hp s old new i hsi] at hs
      set s1 : MerkleSet F :=
        { s with
          nodes := insertN s.nodes (s.depth, i) (hp.H new)
          leafIndices := fun x =>
            if x = hp.H new then some i
            else if x = hp.H old then none else s.leafIndices x } with hs1
      obtain rfl : update_hashes_from_leaf_index hp s1 i = t := Option.some.inj hs
      intro x k hx
      have hxl : (if x = hp.H new then some i
          else if x = hp.H old then none else s.leafIndices x) = some k := hx
      by_cases hxn : x = hp.H new
      · rw [if_pos hxn] at hxl
        obtain rfl : i = k := Option.some.inj hxl
        show (update_hashes_from_leaf_index hp s1 i).nodes (s.depth, i) = some x
        rw [update_nodes_high hp s1 i s.depth i (le_refl s.depth)]
        show insertN s.nodes (s.depth, i) (hp.H new) (s.depth, i) = some x
        unfold insertN
        rw [if_pos rfl, hxn]
      · rw [if_neg hxn] at hxl
        by_cases hxo : x = hp.H old
        · rw [if_pos hxo] at hxl
          exact absurd hxl (by simp)
        · rw [if_neg hxo] at hxl
          have hnod := hls x k hxl
          have hio := hls (hp.H old) i hsi
          have hki : k ≠ i := by
            intro hk
            subst hk
            rw [hnod] at hio
            exact hxo (Option.some.inj hio)
          show (update_hashes_from_leaf_index hp s1 i).nodes (s.depth, k) = some x
          rw [update_nodes_high hp s1 i s.depth k (le_refl s.depth)]
          show insertN s.nodes (s.depth, i) (hp.H new) (s.depth, k) = some x
          unfold insertN
          rw [if_neg]
          · exact hnod
          · intro h3
            exact hki (congrArg Prod.snd h3)

/-- The two invariants of every reachable hash-tree set. -/
theorem reachable_consistent_leafSound (hp : HashParams F) (s : MerkleSet F)
    (h : MerkleSet.Reachable hp s) : Consistent hp s ∧ LeafSound s := by
  induction h with
  | init depth items =>
      exact ⟨new_with_consistent hp depth items, new_with_leafSound hp depth items⟩
  | step s t old new _ hsw ih =>
      exact ⟨swap_consistent hp ih.1 hsw, swap_leafSound hp ih.2 hsw⟩

/-- In a consistent tree every node's value is determined by the leaf row. -/
theorem consistent_get_node_eq_nodeVal (hp : HashParams F) (s : MerkleSet F)
    (hcons : Consistent hp s) :
    ∀ (n l i : Nat), l + n = s.depth →
      s.get_node l i = nodeVal hp (fun j => s.get_node s.depth j) n i := by
  intro n
  induction n with
  | zero =>
      intro l i hl
      have : l = s.depth := by omega
      subst this
      rfl
  | succ n ih =>
      intro l i hl
      have hlt : l < s.depth := by omega
      have hc := hcons l i hlt
      unfold ConsistentAt at hc
      rw [hc, ih (l + 1) (2 * i) (by omega), ih (l + 1) (2 * i + 1) (by omega)]
      rfl

/-- In a consistent tree the digest is the canonical hash of the leaf row. -/
theorem consistent_digest_eq_nodeVal (hp : HashParams F) (s : MerkleSet F)
    (hcons : Consistent hp s) :
    s.digest = nodeVal hp (fun j => s.get_node s.depth j) s.depth 0 := by
  unfold digest
  exact consistent_get_node_eq_nodeVal hp s hcons s.depth 0 0 (by omega)

theorem nodeVal_congr (hp : HashParams F) (f g : Nat → F) (h : ∀ j, f j = g j) :
    ∀ (n i : Nat), nodeVal hp f n i = nodeVal hp g n i := by
  intro n
  induction n with
  | zero => intro i; exact h i
  | succ n ih =>
      intro i
      unfold nodeVal
      rw [ih (2 * i), ih (2 * i + 1)]

/-- The leaf row of a freshly built set: position `j` holds the hash of the
`j`-th item, and the zero default beyond the occupied prefix. -/
theorem new_with_leaf_fn (hp : HashParams F) (depth : Nat) (items : List (List F))
    (j : Nat) :
    (new_with hp depth items).get_node (new_with hp depth items).depth j
      = ((items.map hp.H).get? j).getD hp.z := by
  unfold get_node getN
  rw [new_with_depth, new_with_nodes_high hp depth items depth j (le_refl depth),
    new_with_defaults]
  by_cases hj : j < (items.map hp.H).length
  · rw [if_pos ⟨rfl, hj⟩]
    simp only [Nat.sub_self]
    rfl
  · rw [if_neg ?_]
    · rw [List.get?_eq_none.mpr (by omega)]
      simp only [Nat.sub_self]
      rfl
    · rintro ⟨_, hlt⟩
      exact hj hlt

/-- Round-trip digest for the hash-tree backend: swapping `o` (at leaf `j`)
for `n` produces the digest of a fresh set built from the item list with
position `j` replaced by `n`. -/
theorem merkle_swap_digest_round_trip (hp : HashParams F) (depth : Nat)
    (items : List (List F)) (o n : List F) (j : Nat)
    (hj : (new_with hp depth items).leafIndices (hp.H o) = some j) :
    (MerkleSet.swap hp (new_with hp depth items) o n).map MerkleSet.digest
      = some (MerkleSet.digest (new_with hp depth (items.set j n))) := by
  set s : MerkleSet F := new_with hp depth items with hsdef
  have hsd : s.depth = depth := new_with_depth hp depth items
  have hjlt : j < (items.map hp.H).length := by
    have h2 := hj
    rw [hsdef, new_with_leafIndices] at h2
    exact (leafIndicesOf_sound _ _ _ h2).1
  rw [swap_eq_some hp s o n j hj]
  set s1 : MerkleSet F :=
    { s with
      nodes := insertN s.nodes (s.depth, j) (hp.H n)
      leafIndices := fun x =>
        if x = hp.H n then some j
        else if x = hp.H o then none else s.leafIndices x } with hs1
  set t : MerkleSet F := update_hashes_from_leaf_index hp s1 j with htdef
  have hcons_s : Consistent hp s := new_with_consistent hp depth items
  have hcons_t : Consistent hp t := by
    have hsw2 : MerkleSet.swap hp s o n = some t := by
      rw [swap_eq_some hp s o n j hj]
    exact swap_consistent hp hcons_s hsw2
  have htd : t.depth = s.depth := rfl
  -- the leaf row of `t` is the leaf row of `s` with position `j` overwritten
  have htleaf : ∀ k : Nat, t.get_node depth k
      = if k = j then hp.H n else ((items.map hp.H).get? k).getD hp.z := by
    intro k
    have e1 : t.nodes (s.depth, k) = insertN s.nodes (s.depth, j) (hp.H n) (s.depth, k) :=
      update_nodes_high hp s1 j s.depth k (le_refl s.depth)
    rw [hsd] at e1
    have e2 := new_with_leaf_fn hp depth items k
    rw [new_with_depth, ← hsdef] at e2
    show (t.nodes (depth, k)).getD (t.defaults depth) = _
    rw [e1]
    unfold insertN
    by_cases hk : k = j
    · subst hk
      rw [if_pos rfl, if_pos rfl]
      rfl
    · rw [if_neg (fun h3 => hk (congrArg Prod.snd h3)), if_neg hk]
      exact e2
  have hd1 : t.digest = nodeVal hp (fun k => t.get_node depth k) depth 0 := by
    have h0 := consistent_digest_eq_nodeVal hp t hcons_t
    rw [htd, hsd] at h0
    exact h0
  have hd2 : (new_with hp depth (items.set j n)).digest
      = nodeVal hp (fun k => (new_with hp depth (items.set j n)).get_node depth k)
          depth 0 := by
    have h0 := consistent_digest_eq_nodeVal hp _ (new_with_consistent hp depth (items.set j n))
    rw [new_with_depth] at h0
    exact h0
  have hleafeq : ∀ k, t.get_node depth k
      = (new_with hp depth (items.set j n)).get_node depth k := by
    intro k
    have e3 := new_with_leaf_fn hp depth (items.set j n) k
    rw [new_with_depth] at e3
    rw [htleaf k, e3, List.map_set]
    by_cases hk : k = j
    · subst hk
      rw [if_pos rfl, List.get?_set_eq_of_lt _ hjlt]
      rfl
    · rw [if_neg hk, List.get?_set_ne _ _ (fun h => hk h.symm)]
  show some t.digest = some (new_with hp depth (items.set j n)).digest
  rw [hd1, hd2, nodeVal_congr hp _ _ hleafeq depth 0]

end MerkleSet

theorem zip_eq_zip_take {α β : Type} :
    ∀ (l1 : List α) (l2 : List β),
      l1.zip l2 = (l1.take (min l1.length l2.length)).zip
        (l2.take (min l1.length l2.length)) := by
  intro l1
  induction l1 with
  | nil => intro l2; simp
  | cons a l1 ih =>
      intro l2
      cases l2 with
      | nil => rfl
      | cons b l2 =>
          simp only [List.zip_cons_cons, List.length_cons]
          have hm : min (l1.length + 1) (l2.length + 1) = min l1.length l2.length + 1 := by
            omega
          rw [hm]
          simp only [List.take_succ_cons, List.zip_cons_cons]
          rw [← ih l2]

/-- `GenSet::swap_all` only consumes the zipped prefix: surplus items of the
longer sequence are ignored. -/
theorem genSwapAll_take {σ : Type} (f : σ → List F → List F → Option σ)
    (s : σ) (olds news : List (List F)) :
    genSwapAll f s olds news
      = genSwapAll f s (olds.take (min olds.length news.length))
          (news.take (min olds.length news.length)) := by
  unfold genSwapAll
  rw [zip_eq_zip_take olds news]

namespace MerkleCircuitSet

/-- The empty batch leaves the circuit set untouched, with all (zero)
root-check constraints satisfied. -/
theorem swap_all_nil (hp : HashParams F) (cs : MerkleCircuitSet F) :
    MerkleCircuitSet.swap_all hp cs [] [] = some (cs, true) :=
  rfl

end MerkleCircuitSet

/-- Factoring the accumulated flag out of a boolean-and fold: the state
component never depends on the flag, and the flag is the conjunction of the
initial flag with the fold started from `true`. -/
theorem boolFold_factor {σ α : Type} (step : σ → α → Bool × σ) :
    ∀ (ns : List α) (b : Bool) (s : σ),
      ns.foldl (fun acc n => (acc.1 && (step acc.2 n).1, (step acc.2 n).2)) (b, s)
        = (b && (ns.foldl (fun acc n => (acc.1 && (step acc.2 n).1, (step acc.2 n).2))
              (true, s)).1,
           (ns.foldl (fun acc n => (acc.1 && (step acc.2 n).1, (step acc.2 n).2))
              (true, s)).2) := by
  intro ns
  induction ns with
  | nil => intro b s; simp
  | cons a ns ih =>
      intro b s
      simp only [List.foldl_cons]
      rw [ih (b && (step s a).1) (step s a).2, ih (true && (step s a).1) (step s a).2]
      simp [Bool.and_assoc]

namespace RsaSet

theorem remove_all_append {F : Type} (enc : List F → Nat) (s : RsaSet)
    (ns1 ns2 : List (List F)) :
    RsaSet.remove_all enc s (ns1 ++ ns2)
      = ((RsaSet.remove_all enc s ns1).1
            && (RsaSet.remove_all enc (RsaSet.remove_all enc s ns1).2 ns2).1,
         (RsaSet.remove_all enc (RsaSet.remove_all enc s ns1).2 ns2).2) := by
  unfold RsaSet.remove_all
  rw [List.foldl_append]
  exact boolFold_factor (fun t n => RsaSet.remove enc t n) ns2 _ _

theorem insert_all_append {F : Type} (enc : List F → Nat) (s : RsaSet)
    (ns1 ns2 : List (List F)) :
    RsaSet.insert_all enc s (ns1 ++ ns2)
      = ((RsaSet.insert_all enc s ns1).1
            && (RsaSet.insert_all enc (RsaSet.insert_all enc s ns1).2 ns2).1,
         (RsaSet.insert_all enc (RsaSet.insert_all enc s ns1).2 ns2).2) := by
  unfold RsaSet.insert_all
  rw [List.foldl_append]
  exact boolFold_factor (fun t n => RsaSet.insert enc t n) ns2 _ _

theorem remove_all_singleton {F : Type} (enc : List F → Nat) (s : RsaSet) (n : List F) :
    RsaSet.remove_all enc s [n] = ((RsaSet.remove enc s n).1, (RsaSet.remove enc s n).2) := by
  unfold RsaSet.remove_all
  simp

theorem insert_all_singleton {F : Type} (enc : List F → Nat) (s : RsaSet) (n : List F) :
    RsaSet.insert_all enc s [n] = ((RsaSet.insert enc s n).1, (RsaSet.insert enc s n).2) := by
  unfold RsaSet.insert_all
  simp

/-- Removal never adds elements. -/
theorem remove_not_mem {F : Type} (enc : List F → Nat) (s : RsaSet) (a : List F)
    (x : Nat) (hx : x ∉ s.inner.elements) :
    x ∉ (RsaSet.remove enc s a).2.inner.elements := by
  show x ∉ (NaiveExpSet.remove s.inner (enc a)).2.elements
  unfold NaiveExpSet.remove
  split
  · intro hmem
    exact hx (Multiset.mem_of_mem_erase hmem)
  · exact hx

theorem remove_all_flag_false_mono {F : Type} (enc : List F → Nat) :
    ∀ (ns : List (List F)) (s : RsaSet),
      (ns.foldl (fun acc n => (acc.1 && (RsaSet.remove enc acc.2 n).1,
          (RsaSet.remove enc acc.2 n).2)) (false, s)).1 = false := by
  intro ns
  induction ns with
  | nil => intro s; rfl
  | cons a ns ih =>
      intro s
      simp only [List.foldl_cons, Bool.false_and]
      exact ih (RsaSet.remove enc s a).2

/-- Removing a batch containing an item whose encoding is not present makes
`remove_all` report failure. -/
theorem remove_all_flag_of_absent {F : Type} (enc : List F → Nat) :
    ∀ (ns : List (List F)) (s : RsaSet) (n : List F),
      n ∈ ns → enc n ∉ s.inner.elements →
      (RsaSet.remove_all enc s ns).1 = false := by
  intro ns
  induction ns with
  | nil =>
      intro s n hmem _
      exact absurd hmem (List.not_mem_nil n)
  | cons a ns ih =>
      intro s n hmem habs
      rcases List.mem_cons.mp hmem with rfl | hmem2
      · have hflag : (RsaSet.remove enc s n).1 = false := by
          show (NaiveExpSet.remove s.inner (enc n)).1 = false
          unfold NaiveExpSet.remove
          rw [if_neg habs]
        unfold RsaSet.remove_all
        simp only [List.foldl_cons, hflag, Bool.and_false]
        exact remove_all_flag_false_mono enc ns _
      · have habs2 : enc n ∉ (RsaSet.remove enc s a).2.inner.elements :=
          remove_not_mem enc s a (enc n) habs
        have := ih (RsaSet.remove enc s a).2 n hmem2 habs2
        unfold RsaSet.remove_all at this ⊢
        simp only [List.foldl_cons, Bool.true_and] at this ⊢
        rw [boolFold_factor (fun t m => RsaSet.remove enc t m) ns
          (RsaSet.remove enc s a).1 (RsaSet.remove enc s a).2]
        rw [boolFold_factor (fun t m => RsaSet.remove enc t m) ns
          true (RsaSet.remove enc s a).2] at this
        simp only [Bool.true_and] at this
        simp [this]

/-- `Set::swap` with an absent old item silently removes nothing and inserts
the new item. -/
theorem swap_of_absent {F : Type} (enc : List F → Nat) (s : RsaSet)
    (old new : List F) (h : enc old ∉ s.inner.elements) :
    RsaSet.swap enc s old new = ⟨⟨s.inner.group, enc new ::ₘ s.inner.elements⟩⟩ := by
  unfold RsaSet.swap RsaSet.insert RsaSet.remove NaiveExpSet.insert NaiveExpSet.remove
  rw [if_neg h]

/-- Round-trip digest for the RSA backend, in multiset terms: if `items` is,
up to order, `o` together with `rest`, then swapping `o` for `n` yields the
digest of a fresh accumulator seeded with `rest ++ [n]` (one occurrence of
`o` replaced by `n`). -/
theorem rsa_swap_digest_round_trip {F : Type} [DecidableEq F] (enc : List F → Nat)
    (g : RsaGroup) (items rest : List (List F)) (o n : List F)
    (hperm : List.Perm items (o :: rest)) :
    RsaSet.digest (RsaSet.swap enc (RsaSet.new_with enc g items) o n)
      = RsaSet.digest (RsaSet.new_with enc g (rest ++ [n])) := by
  have ho : o ∈ items := hperm.mem_iff.mpr (List.mem_cons_self o rest)
  have hmem : enc o ∈ (↑(items.map enc) : Multiset Nat) := by
    rw [Multiset.mem_coe]
    exact List.mem_map_of_mem enc ho
  have herase : (↑(items.map enc) : Multiset Nat).erase (enc o)
      = (↑(rest.map enc) : Multiset Nat) := by
    have h2 : (↑(items.map enc) : Multiset Nat)
        = (↑((o :: rest).map enc) : Multiset Nat) :=
      Multiset.coe_eq_coe.mpr (hperm.map enc)
    rw [h2, List.map_cons, ← Multiset.cons_coe]
    exact Multiset.erase_cons_head _ _
  have hswap : RsaSet.swap enc (RsaSet.new_with enc g items) o n
      = ⟨⟨g, enc n ::ₘ (↑(items.map enc) : Multiset Nat).erase (enc o)⟩⟩ := by
    unfold RsaSet.swap RsaSet.insert RsaSet.remove RsaSet.new_with
      NaiveExpSet.new_with NaiveExpSet.insert NaiveExpSet.remove
    rw [if_pos hmem]
  rw [hswap, herase]
  show g.g ^ (enc n ::ₘ (↑(rest.map enc) : Multiset Nat)).prod % g.m
    = g.g ^ ((↑((rest ++ [n]).map enc) : Multiset Nat)).prod % g.m
  rw [Multiset.prod_cons, List.map_append]
  have hsplit : (↑(rest.map enc ++ [n].map enc) : Multiset Nat)
      = (↑(rest.map enc) : Multiset Nat) + (↑([n].map enc) : Multiset Nat) := rfl
  rw [hsplit, Multiset.prod_add]
  simp [mul_comm]

end RsaSet

theorem collectOpt_map_some {α : Type} (l : List α) : collectOpt (l.map some) = some l := by
  induction l with
  | nil => rfl
  | cons a l ih =>
      simp only [List.map_cons, collectOpt, ih]
      rfl

theorem range_map_get {α : Type} (l : List α) :
    (List.range l.length).map (fun i => l.get? i) = l.map some := by
  induction l with
  | nil => rfl
  | cons a l ih =>
      rw [List.length_cons, List.range_succ_eq_map, List.map_cons, List.map_map,
        List.map_cons]
      congr 1

/-- When the item table has exactly `count` rows of exactly `size` entries,
witness allocation reproduces the table. -/
theorem allocItems_full (items : List (List Nat)) (count size : Nat)
    (hb : items.length = count) (hs : ∀ it ∈ items, it.length = size) :
    allocItems items count size = some items := by
  subst hb
  unfold allocItems
  have hrow : ∀ it ∈ items,
      ((fun o : Option (List Nat) => o.bind fun it =>
          collectOpt ((List.range size).map fun j => it.get? j)) ∘ some) it = some it := by
    intro it hit
    show (some it).bind (fun it => collectOpt ((List.range size).map fun j => it.get? j))
      = some it
    rw [Option.some_bind]
    rw [← hs it hit, range_map_get, collectOpt_map_some]
  have hmaps : (List.range items.length).map (fun i => (items.get? i).bind fun it =>
      collectOpt ((List.range size).map fun j => it.get? j)) = items.map some := by
    have h1 : (List.range items.length).map (fun i => (items.get? i).bind fun it =>
        collectOpt ((List.range size).map fun j => it.get? j))
        = ((List.range items.length).map (fun i => items.get? i)).map
            (fun o => o.bind fun it =>
              collectOpt ((List.range size).map fun j => it.get? j)) := by
      rw [List.map_map]
      rfl
    rw [h1, range_map_get, List.map_map]
    exact List.map_eq_map_iff.mpr hrow
  rw [hmaps, collectOpt_map_some]

/-- Fully determined trace of `SetBench::synthesize` on a successful proving
run: the events are, in order, the group inputize, the initial-digest
inputize, the challenge hash over digest limbs then insertions then removals,
the final-digest equality constraint, and the final-digest inputize. -/
theorem synthesize_spec (enc : List Nat → Nat) (inputs : SetBenchInputs)
    (params : SetBenchParams) (removed inserted : List (List Nat)) (v2 : RsaSet)
    (hr : allocItems inputs.to_remove params.n_removes params.item_size = some removed)
    (hi : allocItems inputs.to_insert params.n_inserts params.item_size = some inserted)
    (hsw : circuitSetSwapAllValue enc inputs.initial_state removed inserted = some v2) :
    synthesize enc inputs params
      = some ([CSEvent.inputize
                 (natToLimbs params.limb_width (params.n_bits_base / params.limb_width)
                    inputs.initial_state.inner.group.g
                  ++ natToLimbs params.limb_width (params.n_bits_base / params.limb_width)
                    inputs.initial_state.inner.group.m),
               CSEvent.inputize
                 (natToLimbs params.limb_width (params.n_bits_base / params.limb_width)
                    (RsaSet.digest inputs.initial_state)),
               CSEvent.challengeHash
                 (natToLimbs params.limb_width (params.n_bits_base / params.limb_width)
                    (RsaSet.digest inputs.initial_state)
                  ++ inserted.flatten ++ removed.flatten),
               CSEvent.equalCheck (RsaSet.digest v2) inputs.final_digest,
               CSEvent.inputize
                 (natToLimbs params.limb_width (params.n_bits_base / params.limb_width)
                    (RsaSet.digest v2))], v2) := by
  unfold synthesize
  rw [hr, hi]
  simp only [Option.some_bind]
  rw [hsw]
  simp only [Option.some_bind]

/-- Claim C1, counterexample: the claim says every native backend's `swap`
aborts when the old item is absent, but the RSA-backed `Set::swap`
(src/set.rs:312–315) discards the boolean from `remove` and proceeds: on the
empty accumulator, swapping the absent item `[1]` for `[2]` returns a
well-defined state whose digest `2^(encN [2]) mod m = 128` differs from the
untouched digest `2`, where the spec-shaped contract `rsaSwapSpec` aborts
(`none`). -/
theorem claim_C1_counterexample :
    encN [1] ∉ (RsaSet.new_with encN grpN ([] : List (List Nat))).inner.elements
    ∧ rsaSwapSpec encN (RsaSet.new_with encN grpN ([] : List (List Nat))) [1] [2] = none
    ∧ RsaSet.digest
        (RsaSet.swap encN (RsaSet.new_with encN grpN ([] : List (List Nat))) [1] [2]) = 128
    ∧ RsaSet.digest (RsaSet.new_with encN grpN ([] : List (List Nat))) = 2 := by
  refine ⟨by decide, by decide, by decide, by decide⟩

/-- Claim C1, amended: the hash-tree backend's native `swap` aborts when the
old item is absent, and during proof generation `CircuitSet::remove` aborts
witness construction (`assert!(v.remove_all(..))`) when a removed item was
never inserted; the RSA-backed native `Set::swap`, however, discards the
`remove` result and silently proceeds, inserting the new item regardless. -/
theorem claim_C1_amended :
    (∀ (F : Type) [DecidableEq F] (hp : HashParams F) (s : MerkleSet F)
        (old new : List F), s.leafIndices (hp.H old) = none →
        MerkleSet.swap hp s old new = none)
    ∧ (∀ (F : Type) (enc : List F → Nat) (v : RsaSet) (ns : List (List F)) (n : List F),
        n ∈ ns → enc n ∉ v.inner.elements →
        circuitSetRemoveValue enc v ns = none)
    ∧ (∀ (F : Type) (enc : List F → Nat) (s : RsaSet) (old new : List F),
        enc old ∉ s.inner.elements →
        RsaSet.swap enc s old new = ⟨⟨s.inner.group, enc new ::ₘ s.inner.elements⟩⟩) := by
  refine ⟨?_, ?_, ?_⟩
  · intro F _ hp s old new h
    exact MerkleSet.swap_eq_none hp s old new h
  · intro F enc v ns n hmem habs
    have hflag := RsaSet.remove_all_flag_of_absent enc ns v n hmem habs
    unfold circuitSetRemoveValue
    simp [hflag]
  · intro F enc s old new h
    exact RsaSet.swap_of_absent enc s old new h

/-- Claim C1, witness for the amended claim at concrete inputs. -/
theorem claim_C1_witness :
    MerkleSet.swap hpN (MerkleSet.new_with hpN 1 [[1]]) [2] [9] = none
    ∧ circuitSetRemoveValue encN (RsaSet.new_with encN grpN [[1]]) [[3]] = none
    ∧ RsaSet.swap encN (RsaSet.new_with encN grpN [[1]]) [3] [4]
        = ⟨⟨(RsaSet.new_with encN grpN [[1]]).inner.group,
            encN [4] ::ₘ (RsaSet.new_with encN grpN [[1]]).inner.elements⟩⟩ := by
  refine ⟨?_, ?_, ?_⟩
  · exact claim_C1_amended.1 Nat hpN (MerkleSet.new_with hpN 1 [[1]]) [2] [9] (by decide)
  · exact claim_C1_amended.2.1 Nat encN (RsaSet.new_with encN grpN [[1]]) [[3]] [3]
      (by decide) (by decide)
  · exact claim_C1_amended.2.2 Nat encN (RsaSet.new_with encN grpN [[1]]) [3] [4] (by decide)

/-- Claim C2, counterexample: seeding a depth-1 tree with the same item twice
(`new_with` is reachable-by-construction, no swap needed) leaves both leaf
positions occupied by hash `4 = hpN.H [1]`, yet the leaf-index map sends `4`
to position 1 only — so the map is not a bijection onto the occupied
positions (position 0's hash does not map back to position 0). -/
theorem claim_C2_counterexample :
    ¬ LeafIndicesOntoOccupied (MerkleSet.new_with hpN 1 [[1], [1]]) := by
  intro h
  have h0 := h 0 4 (by decide)
  exact absurd h0 (by decide)

/-- Claim C2, amended: every reachable `MerkleSet` is hash-consistent (every
internal node equals the hash of its two children, absent nodes reading
through the per-level defaults), and the leaf-index map is sound and
injective: every entry points at an occupied leaf position holding exactly
that hash, and no two keys share a position.  (It is a bijection onto
occupied positions only when the occupied leaf hashes are pairwise
distinct — duplicate leaves break surjectivity.) -/
theorem claim_C2_amended (F : Type) [DecidableEq F] (hp : HashParams F)
    (s : MerkleSet F) (h : MerkleSet.Reachable hp s) :
    Consistent hp s
    ∧ (∀ x i, s.leafIndices x = some i → s.nodes (s.depth, i) = some x)
    ∧ (∀ x y i, s.leafIndices x = some i → s.leafIndices y = some i → x = y) := by
  obtain ⟨hc, hls⟩ := MerkleSet.reachable_consistent_leafSound hp s h
  refine ⟨hc, hls, ?_⟩
  intro x y i hx hy
  have h1 := hls x i hx
  have h2 := hls y i hy
  rw [h1] at h2
  exact Option.some.inj h2

/-- Claim C2, witness for the amended claim at a concrete reachable set. -/
theorem claim_C2_witness :
    Consistent hpN (MerkleSet.new_with hpN 1 [[1], [2]])
    ∧ (∀ x i, (MerkleSet.new_with hpN 1 [[1], [2]]).leafIndices x = some i →
        (MerkleSet.new_with hpN 1 [[1], [2]]).nodes
          ((MerkleSet.new_with hpN 1 [[1], [2]]).depth, i) = some x)
    ∧ (∀ x y i, (MerkleSet.new_with hpN 1 [[1], [2]]).leafIndices x = some i →
        (MerkleSet.new_with hpN 1 [[1], [2]]).leafIndices y = some i → x = y) :=
  claim_C2_amended Nat hpN (MerkleSet.new_with hpN 1 [[1], [2]])
    (MerkleSet.Reachable.init 1 [[1], [2]])

/-- Claim C4, counterexample: with set semantics the claim fails when the new
item is already a member.  Seeding with S = {[1], [2]}, swapping o = [1] for
n = [2] leaves the multiset {encN [2], encN [2]} (digest `2^49 mod m`),
while an accumulator seeded with (S \ {o}) ∪ {n} = {[2]} has digest
`2^7 mod m` — they differ. -/
theorem claim_C4_counterexample :
    RsaSet.digest (RsaSet.swap encN (RsaSet.new_with encN grpN [[1], [2]]) [1] [2])
      ≠ RsaSet.digest (RsaSet.new_with encN grpN [[2]]) := by
  decide

/-- Claim C4, amended: round-trip digest equality holds in multiset terms.
RSA backend: if `items` is, up to order, `o` together with `rest`, then
`swap(o, n)` on a fresh accumulator seeded with `items` gives the digest of a
fresh accumulator seeded with `rest ++ [n]`.  Hash-tree backend: `swap(o, n)`
on a fresh tree seeded with `items` (with `o`'s leaf at index `j`) gives the
digest of a fresh tree seeded with `items` with position `j` replaced by
`n`. -/
theorem claim_C4_amended :
    (∀ (F : Type) [DecidableEq F] (enc : List F → Nat) (g : RsaGroup)
        (items rest : List (List F)) (o n : List F),
        List.Perm items (o :: rest) →
        RsaSet.digest (RsaSet.swap enc (RsaSet.new_with enc g items) o n)
          = RsaSet.digest (RsaSet.new_with enc g (rest ++ [n])))
    ∧ (∀ (F : Type) [DecidableEq F] (hp : HashParams F) (depth : Nat)
        (items : List (List F)) (o n : List F) (j : Nat),
        (MerkleSet.new_with hp depth items).leafIndices (hp.H o) = some j →
        (MerkleSet.swap hp (MerkleSet.new_with hp depth items) o n).map MerkleSet.digest
          = some (MerkleSet.digest (MerkleSet.new_with hp depth (items.set j n)))) := by
  refine ⟨?_, ?_⟩
  · intro F _ enc g items rest o n hperm
    exact RsaSet.rsa_swap_digest_round_trip enc g items rest o n hperm
  · intro F _ hp depth items o n j hj
    exact MerkleSet.merkle_swap_digest_round_trip hp depth items o n j hj

/-- Claim C4, witness for the amended claim at concrete inputs. -/
theorem claim_C4_witness :
    RsaSet.digest (RsaSet.swap encN (RsaSet.new_with encN grpN [[1], [2]]) [1] [3])
      = RsaSet.digest (RsaSet.new_with encN grpN [[2], [3]])
    ∧ (MerkleSet.swap hpN (MerkleSet.new_with hpN 1 [[1], [2]]) [1] [7]).map
        MerkleSet.digest
      = some (MerkleSet.digest (MerkleSet.new_with hpN 1 ([[1], [2]].set 0 [7]))) := by
  refine ⟨?_, ?_⟩
  · exact claim_C4_amended.1 Nat encN grpN [[1], [2]] [[2]] [1] [3] (by decide)
  · exact claim_C4_amended.2 Nat hpN 1 [[1], [2]] [1] [7] 0 (by decide)

/-- Claim C5: after `MerkleSet::swap` replaces the occupied leaf at index `i`,
only that leaf's node and its ancestors are modified: every other leaf, every
off-path internal node, and in particular every sibling hash along the
swapped leaf's path, is unchanged in the node map. -/
theorem claim_C5 (F : Type) [DecidableEq F] (hp : HashParams F) (s : MerkleSet F)
    (old new : List F) (i : Nat) (h : s.leafIndices (hp.H old) = some i) :
    ∃ t, MerkleSet.swap hp s old new = some t
      ∧ (∀ j, j ≠ i → t.nodes (s.depth, j) = s.nodes (s.depth, j))
      ∧ (∀ l j, l < s.depth → j ≠ i / 2 ^ (s.depth - l) → t.nodes (l, j) = s.nodes (l, j))
      ∧ (∀ l, l < s.depth →
          t.nodes (l + 1, (i / 2 ^ (s.depth - (l + 1))) ^^^ 1)
            = s.nodes (l + 1, (i / 2 ^ (s.depth - (l + 1))) ^^^ 1)) := by
  rw [MerkleSet.swap_eq_some hp s old new i h]
  set s1 : MerkleSet F :=
    { s with
      nodes := insertN s.nodes (s.depth, i) (hp.H new)
      leafIndices := fun x =>
        if x = hp.H new then some i
        else if x = hp.H old then none else s.leafIndices x } with hs1
  have hleafrow : ∀ j, j ≠ i →
      (MerkleSet.update_hashes_from_leaf_index hp s1 i).nodes (s.depth, j)
        = s.nodes (s.depth, j) := by
    intro j hj
    rw [MerkleSet.update_nodes_high hp s1 i s.depth j (le_refl s.depth)]
    show insertN s.nodes (s.depth, i) (hp.H new) (s.depth, j) = s.nodes (s.depth, j)
    unfold insertN
    rw [if_neg (fun h3 => hj (congrArg Prod.snd h3))]
  have hoffpath : ∀ l j, l < s.depth → j ≠ i / 2 ^ (s.depth - l) →
      (MerkleSet.update_hashes_from_leaf_index hp s1 i).nodes (l, j)
        = s.nodes (l, j) := by
    intro l j hl hj
    rw [MerkleSet.update_nodes_offpath hp s1 i l j hl hj]
    have hk : ((l, j) : Nat × Nat) ≠ (s.depth, i) := by
      intro h3
      have := congrArg Prod.fst h3
      omega
    show insertN s.nodes (s.depth, i) (hp.H new) (l, j) = s.nodes (l, j)
    unfold insertN
    rw [if_neg hk]
  refine ⟨_, rfl, hleafrow, hoffpath, ?_⟩
  intro l hl
  rcases Nat.lt_or_ge (l + 1) s.depth with hlt | hge
  · exact hoffpath (l + 1) _ hlt (xor_one_ne _)
  · have hz : s.depth - (l + 1) = 0 := by omega
    have heq : l + 1 = s.depth := by omega
    rw [hz, pow_zero, Nat.div_one, heq]
    exact hleafrow (i ^^^ 1) (xor_one_ne i)

/-- Claim C5, witness at a concrete depth-1 tree. -/
theorem claim_C5_witness :
    ∃ t, MerkleSet.swap hpN (MerkleSet.new_with hpN 1 [[1], [2]]) [2] [9] = some t
      ∧ (∀ j, j ≠ 1 → t.nodes ((MerkleSet.new_with hpN 1 [[1], [2]]).depth, j)
          = (MerkleSet.new_with hpN 1 [[1], [2]]).nodes
              ((MerkleSet.new_with hpN 1 [[1], [2]]).depth, j))
      ∧ (∀ l j, l < (MerkleSet.new_with hpN 1 [[1], [2]]).depth →
          j ≠ 1 / 2 ^ ((MerkleSet.new_with hpN 1 [[1], [2]]).depth - l) →
          t.nodes (l, j) = (MerkleSet.new_with hpN 1 [[1], [2]]).nodes (l, j))
      ∧ (∀ l, l < (MerkleSet.new_with hpN 1 [[1], [2]]).depth →
          t.nodes (l + 1, (1 / 2 ^ ((MerkleSet.new_with hpN 1 [[1], [2]]).depth - (l + 1))) ^^^ 1)
            = (MerkleSet.new_with hpN 1 [[1], [2]]).nodes
                (l + 1, (1 / 2 ^ ((MerkleSet.new_with hpN 1 [[1], [2]]).depth - (l + 1))) ^^^ 1)) :=
  claim_C5 Nat hpN (MerkleSet.new_with hpN 1 [[1], [2]]) [2] [9] 1 (by decide)

/-- Claim C6: the empty batch is the identity for the hash-tree backend, both
natively (`GenSet::swap_all` over empty iterators) and in circuit form
(`MerkleCircuitSet::swap_all` returns the set unchanged, its digest wire
being the initial digest, with all root checks trivially satisfied). -/
theorem claim_C6 (F : Type) [DecidableEq F] (hp : HashParams F) (s : MerkleSet F)
    (cs : MerkleCircuitSet F) :
    MerkleSet.swap_all hp s [] [] = some s
    ∧ (MerkleSet.swap_all hp s [] []).map MerkleSet.digest = some (MerkleSet.digest s)
    ∧ MerkleCircuitSet.swap_all hp cs [] [] = some (cs, true)
    ∧ (MerkleCircuitSet.swap_all hp cs [] []).map (fun r => r.1.digest)
        = some cs.digest :=
  ⟨rfl, rfl, rfl, rfl⟩

/-- Claim C8: `GenSet::swap_all` consumes exactly the zipped prefix of the
two sequences — `min (len old) (len new)` pairwise swaps — and the surplus of
the longer sequence is ignored without any error. -/
theorem claim_C8 (F σ : Type) [DecidableEq F] (f : σ → List F → List F → Option σ)
    (s : σ) (olds news : List (List F)) :
    genSwapAll f s olds news
      = genSwapAll f s (olds.take (min olds.length news.length))
          (news.take (min olds.length news.length))
    ∧ (olds.zip news).length = min olds.length news.length :=
  ⟨genSwapAll_take f s olds news, List.length_zip olds news⟩

/-- Claim C9: `remove_all` and `insert_all` never short-circuit: over an
appended batch the resulting state is the sequential composition regardless
of the reported booleans (no rollback), and the boolean is the conjunction of
the two halves' booleans; on a singleton the boolean is exactly the
per-item result (`remove` reporting presence, `insert` prior absence). -/
theorem claim_C9 (F : Type) (enc : List F → Nat) (s : RsaSet)
    (ns1 ns2 : List (List F)) (n : List F) :
    RsaSet.remove_all enc s (ns1 ++ ns2)
      = ((RsaSet.remove_all enc s ns1).1
            && (RsaSet.remove_all enc (RsaSet.remove_all enc s ns1).2 ns2).1,
         (RsaSet.remove_all enc (RsaSet.remove_all enc s ns1).2 ns2).2)
    ∧ RsaSet.insert_all enc s (ns1 ++ ns2)
      = ((RsaSet.insert_all enc s ns1).1
            && (RsaSet.insert_all enc (RsaSet.insert_all enc s ns1).2 ns2).1,
         (RsaSet.insert_all enc (RsaSet.insert_all enc s ns1).2 ns2).2)
    ∧ RsaSet.remove_all enc s [n] = ((RsaSet.remove enc s n).1, (RsaSet.remove enc s n).2)
    ∧ RsaSet.insert_all enc s [n] = ((RsaSet.insert enc s n).1, (RsaSet.insert enc s n).2) :=
  ⟨RsaSet.remove_all_append enc s ns1 ns2, RsaSet.insert_all_append enc s ns1 ns2,
   RsaSet.remove_all_singleton enc s n, RsaSet.insert_all_singleton enc s n⟩

/-- Claim C10, counterexample: swapping an item for itself (`o = n`, so the
hashes coincide) leaves the "old hash key" in `leaf_indices` — the remove is
followed by an insert of the same key — contradicting the claim that the old
hash key is removed.  Here leaf 1 holds `hpN.H [2] = 5` before and after. -/
theorem claim_C10_counterexample :
    (MerkleSet.new_with hpN 1 [[1], [2]]).leafIndices (hpN.H [2]) = some 1
    ∧ (MerkleSet.swap hpN (MerkleSet.new_with hpN 1 [[1], [2]]) [2] [2]).map
        (fun t => t.leafIndices (hpN.H [2])) = some (some 1) := by
  refine ⟨by decide, by decide⟩

/-- Claim C10, amended: `swap(o, n)` at occupied leaf `i` writes the new hash
at node `(depth, i)`, maps the new hash to the same index `i`, and — provided
the new item's hash differs from the old one's — removes the old hash key
from `leaf_indices`. -/
theorem claim_C10_amended (F : Type) [DecidableEq F] (hp : HashParams F)
    (s : MerkleSet F) (old new : List F) (i : Nat)
    (h : s.leafIndices (hp.H old) = some i) :
    ∃ t, MerkleSet.swap hp s old new = some t
      ∧ t.nodes (s.depth, i) = some (hp.H new)
      ∧ t.leafIndices (hp.H new) = some i
      ∧ (hp.H new ≠ hp.H old → t.leafIndices (hp.H old) = none) := by
  rw [MerkleSet.swap_eq_some hp s old new i h]
  set s1 : MerkleSet F :=
    { s with
      nodes := insertN s.nodes (s.depth, i) (hp.H new)
      leafIndices := fun x =>
        if x = hp.H new then some i
        else if x = hp.H old then none else s.leafIndices x } with hs1
  refine ⟨_, rfl, ?_, ?_, ?_⟩
  · rw [MerkleSet.update_nodes_high hp s1 i s.depth i (le_refl s.depth)]
    show insertN s.nodes (s.depth, i) (hp.H new) (s.depth, i) = some (hp.H new)
    unfold insertN
    rw [if_pos rfl]
  · show (if hp.H new = hp.H new then some i
      else if hp.H new = hp.H old then none else s.leafIndices (hp.H new)) = some i
    rw [if_pos rfl]
  · intro hne
    show (if hp.H old = hp.H new then some i
      else if hp.H old = hp.H old then none else s.leafIndices (hp.H old)) = none
    rw [if_neg (fun he => hne he.symm), if_pos rfl]

/-- Claim C10, witness at a concrete depth-1 tree with distinct hashes. -/
theorem claim_C10_witness :
    ∃ t, MerkleSet.swap hpN (MerkleSet.new_with hpN 1 [[1], [2]]) [2] [9] = some t
      ∧ t.nodes ((MerkleSet.new_with hpN 1 [[1], [2]]).depth, 1) = some (hpN.H [9])
      ∧ t.leafIndices (hpN.H [9]) = some 1
      ∧ (hpN.H [9] ≠ hpN.H [2] → t.leafIndices (hpN.H [2]) = none) :=
  claim_C10_amended Nat hpN (MerkleSet.new_with hpN 1 [[1], [2]]) [2] [9] 1 (by decide)

/-- Claim C3: in `SetBench::synthesize` the challenge is derived from exactly
one hash call whose input is, in order, the initial digest's limbs, then
every inserted item's field elements, then every removed item's field
elements — no other data enters the challenge hash. -/
theorem claim_C3 (enc : List Nat → Nat) (inputs : SetBenchInputs)
    (params : SetBenchParams)
    (hrl : inputs.to_remove.length = params.n_removes)
    (hrs : ∀ it ∈ inputs.to_remove, it.length = params.item_size)
    (hil : inputs.to_insert.length = params.n_inserts)
    (his : ∀ it ∈ inputs.to_insert, it.length = params.item_size)
    (hpresent : (RsaSet.remove_all enc inputs.initial_state inputs.to_remove).1 = true) :
    ∃ tr fs, synthesize enc inputs params = some (tr, fs)
      ∧ challengeEvents tr
          = [natToLimbs params.limb_width (params.n_bits_base / params.limb_width)
               (RsaSet.digest inputs.initial_state)
             ++ inputs.to_insert.flatten ++ inputs.to_remove.flatten] := by
  have hr := allocItems_full inputs.to_remove params.n_removes params.item_size hrl hrs
  have hi := allocItems_full inputs.to_insert params.n_inserts params.item_size hil his
  have hsw : circuitSetSwapAllValue enc inputs.initial_state inputs.to_remove
      inputs.to_insert
      = some (RsaSet.insert_all enc
          (RsaSet.remove_all enc inputs.initial_state inputs.to_remove).2
          inputs.to_insert).2 := by
    unfold circuitSetSwapAllValue circuitSetRemoveValue circuitSetInsertValue
    simp [hpresent]
  refine ⟨_, _, synthesize_spec enc inputs params inputs.to_remove inputs.to_insert _
    hr hi hsw, ?_⟩
  rfl

/-- Claim C3, witness: a concrete one-swap run. -/
theorem claim_C3_witness :
    ∃ tr fs, synthesize encN inpN prmN = some (tr, fs)
      ∧ challengeEvents tr
          = [natToLimbs prmN.limb_width (prmN.n_bits_base / prmN.limb_width)
               (RsaSet.digest inpN.initial_state)
             ++ inpN.to_insert.flatten ++ inpN.to_remove.flatten] :=
  claim_C3 encN inpN prmN (by decide) (by decide) (by decide) (by decide) (by decide)

/-- Claim C7: on a successful proving run the public input vector consists,
in order, of the group descriptor limbs (generator then modulus), the initial
digest limbs, and the final digest limbs; the trace shows the group and the
initial set inputized first and the final set inputized only after the
equality constraint on the resulting digest. -/
theorem claim_C7 (enc : List Nat → Nat) (inputs : SetBenchInputs)
    (params : SetBenchParams) (removed inserted : List (List Nat)) (fs : RsaSet)
    (hr : allocItems inputs.to_remove params.n_removes params.item_size = some removed)
    (hi : allocItems inputs.to_insert params.n_inserts params.item_size = some inserted)
    (hsw : circuitSetSwapAllValue enc inputs.initial_state removed inserted = some fs) :
    ∃ tr, synthesize enc inputs params = some (tr, fs)
      ∧ publicInputs tr
          = natToLimbs params.limb_width (params.n_bits_base / params.limb_width)
              inputs.initial_state.inner.group.g
            ++ natToLimbs params.limb_width (params.n_bits_base / params.limb_width)
              inputs.initial_state.inner.group.m
            ++ natToLimbs params.limb_width (params.n_bits_base / params.limb_width)
              (RsaSet.digest inputs.initial_state)
            ++ natToLimbs params.limb_width (params.n_bits_base / params.limb_width)
              (RsaSet.digest fs)
      ∧ tr = [CSEvent.inputize
                (natToLimbs params.limb_width (params.n_bits_base / params.limb_width)
                   inputs.initial_state.inner.group.g
                 ++ natToLimbs params.limb_width (params.n_bits_base / params.limb_width)
                   inputs.initial_state.inner.group.m),
              CSEvent.inputize
                (natToLimbs params.limb_width (params.n_bits_base / params.limb_width)
                   (RsaSet.digest inputs.initial_state)),
              CSEvent.challengeHash
                (natToLimbs params.limb_width (params.n_bits_base / params.limb_width)
                   (RsaSet.digest inputs.initial_state)
                 ++ inserted.flatten ++ removed.flatten),
              CSEvent.equalCheck (RsaSet.digest fs) inputs.final_digest,
              CSEvent.inputize
                (natToLimbs params.limb_width (params.n_bits_base / params.limb_width)
                   (RsaSet.digest fs))] := by
  refine ⟨_, synthesize_spec enc inputs params removed inserted fs hr hi hsw, ?_, rfl⟩
  unfold publicInputs
  simp [List.append_assoc]

/-- Claim C7, witness: a concrete one-swap run. -/
theorem claim_C7_witness :
    ∃ tr, synthesize encN inpN prmN = some (tr, ⟨⟨grpN, {11}⟩⟩)
      ∧ publicInputs tr
          = natToLimbs prmN.limb_width (prmN.n_bits_base / prmN.limb_width)
              inpN.initial_state.inner.group.g
            ++ natToLimbs prmN.limb_width (prmN.n_bits_base / prmN.limb_width)
              inpN.initial_state.inner.group.m
            ++ natToLimbs prmN.limb_width (prmN.n_bits_base / prmN.limb_width)
              (RsaSet.digest inpN.initial_state)
            ++ natToLimbs prmN.limb_width (prmN.n_bits_base / prmN.limb_width)
              (RsaSet.digest ⟨⟨grpN, {11}⟩⟩)
      ∧ tr = [CSEvent.inputize
                (natToLimbs prmN.limb_width (prmN.n_bits_base / prmN.limb_width)
                   inpN.initial_state.inner.group.g
                 ++ natToLimbs prmN.limb_width (prmN.n_bits_base / prmN.limb_width)
                   inpN.initial_state.inner.group.m),
              CSEvent.inputize
                (natToLimbs prmN.limb_width (prmN.n_bits_base / prmN.limb_width)
                   (RsaSet.digest inpN.initial_state)),
              CSEvent.challengeHash
                (natToLimbs prmN.limb_width (prmN.n_bits_base / prmN.limb_width)
                   (RsaSet.digest inpN.initial_state)
                 ++ List.flatten [[4]] ++ List.flatten [[3]]),
              CSEvent.equalCheck (RsaSet.digest ⟨⟨grpN, {11}⟩⟩) inpN.final_digest,
              CSEvent.inputize
                (natToLimbs prmN.limb_width (prmN.n_bits_base / prmN.limb_width)
                   (RsaSet.digest ⟨⟨grpN, {11}⟩⟩))] :=
  claim_C7 encN inpN prmN [[3]] [[4]] ⟨⟨grpN, {11}⟩⟩ (by decide) (by decide) (by decide)

end BellmanBignat
